import Mathlib

/-!
Shallow embedding of the cde-simulator analytics engine.

Sources:
  * src/unnamed/part_000 : simulatePrices (price path simulator)
  * src/unnamed/part_002 : SimulationChart — calculateCDE, the WebSocket
    tick handler (buffer append + static trigger), getThresholds,
    calculateAdaptiveThresholds, and the adaptive-oracle effect.

Modelling conventions:
  * JavaScript float64 numbers are modelled as exact reals.
  * A value that can be null in the source is modelled as Option.
  * JavaScript truthiness on a nullable number (used by
    chainlinkPrice || price and if (chainlinkPrice)) is false exactly for
    null and 0, so it is modelled as: none, or some 0.
  * The one place the source can produce NaN (stdDev / mean with a
    zero-mean, zero-deviation window, then Math.min(0.01, NaN) = NaN) is
    modelled as Option, with none standing for NaN.
-/

namespace CdeSimulator

/-- PricePoint from part_000 and part_002: timestamp, reference price,
oracle price. -/
structure PricePoint where
  t : ℝ
  ref : ℝ
  oracle : ℝ

instance : Inhabited PricePoint := ⟨⟨0, 0, 0⟩⟩

/-- TriggerPoint from part_002. -/
structure TriggerPoint where
  t : ℝ
  value : ℝ

/-- ThresholdBand shape returned by getThresholds and
calculateAdaptiveThresholds. -/
structure ThresholdBand where
  upper : ℝ
  lower : ℝ

/-- JavaScript a || b for a nullable number a: returns b when a is null
or 0 (falsy), otherwise a.  Models line 126 of part_002. -/
noncomputable def jsOr (q : Option ℝ) (fallback : ℝ) : ℝ :=
  match q with
  | none => fallback
  | some v => if v = 0 then fallback else v

/-- The PricePoint built on tick ingestion (part_002 lines 121-128):
t is the arrival timestamp, ref the tick price, oracle the Chainlink
quote with fallback to the tick price. -/
noncomputable def tickPoint (chainlinkPrice : Option ℝ) (price timestamp : ℝ) :
    PricePoint :=
  { t := timestamp, ref := price, oracle := jsOr chainlinkPrice price }

/-- Buffer append with eviction (part_002 lines 120-135): append the new
point, and if the length exceeds 1000 keep only the last 1000 points
(newData.slice(-1000)). -/
def appendTick (prevData : List PricePoint) (p : PricePoint) : List PricePoint :=
  let newData := prevData ++ [p]
  if newData.length > 1000 then newData.drop (newData.length - 1000) else newData

/-- Repeated ingestion of a sequence of points into the buffer. -/
def appendTicks (prevData : List PricePoint) (ps : List PricePoint) :
    List PricePoint :=
  ps.foldl appendTick prevData

/-- The full setData updater of part_002 lines 120-135: build the tick
point and append it with eviction. -/
noncomputable def updateData (chainlinkPrice : Option ℝ) (price timestamp : ℝ)
    (prevData : List PricePoint) : List PricePoint :=
  appendTick prevData (tickPoint chainlinkPrice price timestamp)

/-- Static trigger update (part_002 lines 144-153): when the Chainlink
quote is truthy (non-null, non-zero) and the relative deviation of the
quote from the tick price exceeds the static threshold, append one
TriggerPoint; otherwise leave the list unchanged. -/
noncomputable def updateStaticPoints (staticThreshold : ℝ)
    (chainlinkPrice : Option ℝ) (price timestamp : ℝ)
    (prev : List TriggerPoint) : List TriggerPoint :=
  match chainlinkPrice with
  | none => prev
  | some q =>
    if q = 0 then prev
    else if |q - price| / price > staticThreshold then
      prev ++ [{ t := timestamp, value := price }]
    else prev

/-- The accumulation loop of calculateCDE (part_002 lines 76-84): for each
adjacent pair (prev, curr) add abs(curr.ref - curr.oracle) * (curr.t -
prev.t) / 1000. -/
noncomputable def cdeSum : List PricePoint → ℝ
  | [] => 0
  | [_] => 0
  | prev :: curr :: rest =>
      |curr.ref - curr.oracle| * (curr.t - prev.t) / 1000 + cdeSum (curr :: rest)

/-- calculateCDE (part_002 lines 73-85): 0 for fewer than two points,
otherwise the left-endpoint rectangle sum over adjacent pairs. -/
noncomputable def calculateCDE (prices : List PricePoint) : ℝ :=
  if prices.length < 2 then 0 else cdeSum prices

/-- getThresholds (part_002 lines 241-250): static plus-or-minus 0.5
percent band around the oracle price of the latest point; zero band for
an empty buffer. -/
noncomputable def getThresholds (data : List PricePoint) : ThresholdBand :=
  if data.length = 0 then { upper := 0, lower := 0 }
  else
    let currentPrice := (data.getD (data.length - 1) default).oracle
    { upper := currentPrice * (1 + 0.005), lower := currentPrice * (1 - 0.005) }

/-- The rolling window of oracle prices used at a given index by
calculateAdaptiveThresholds (part_002 lines 282-285):
prices.slice(index - lookback, index + 1).map(p => p.oracle) with
lookback = min(10, index). -/
def rollingWindow (prices : List PricePoint) (index : ℕ) : List ℝ :=
  let lookback := min 10 index
  ((prices.drop (index - lookback)).take (lookback + 1)).map (fun p => p.oracle)

/-- Rolling mean of the window (part_002 lines 286-287). -/
noncomputable def rollingMean (prices : List PricePoint) (index : ℕ) : ℝ :=
  (rollingWindow prices index).sum / (rollingWindow prices index).length

/-- Rolling population standard deviation of the window (part_002 lines
288-291). -/
noncomputable def rollingStdDev (prices : List PricePoint) (index : ℕ) : ℝ :=
  Real.sqrt
    (((rollingWindow prices index).map
        (fun b => (b - rollingMean prices index) ^ 2)).sum /
      (rollingWindow prices index).length)

/-- volatilityFactor = Math.min(0.01, stdDev / mean) (part_002 line 294),
with the IEEE semantics of the division spelled out: a nonzero mean gives
the real quotient; a zero mean gives +infinity (clamped by min to 0.01)
when stdDev is nonzero, and NaN (modelled as none, and propagated by
Math.min) when stdDev is zero.  In calculateAdaptiveThresholds this is
only invoked with 1 <= index < prices.length, where the window is
nonempty. -/
noncomputable def volatilityFactorAt (prices : List PricePoint) (index : ℕ) :
    Option ℝ :=
  if rollingMean prices index = 0 then
    if rollingStdDev prices index = 0 then none else some 0.01
  else some (min 0.01 (rollingStdDev prices index / rollingMean prices index))

/-- calculateAdaptiveThresholds (part_002 lines 274-302): empty for fewer
than two points; otherwise one band per point, a fixed plus-or-minus 0.5
percent band at index 0 and a volatility-scaled band elsewhere.  An entry
is none exactly when the volatility factor is NaN (which makes both band
fields NaN in the source). -/
noncomputable def calculateAdaptiveThresholds (prices : List PricePoint) :
    List (Option ThresholdBand) :=
  if prices.length < 2 then []
  else prices.enum.map (fun ip =>
    if ip.1 = 0 then
      some { upper := ip.2.oracle * 1.005, lower := ip.2.oracle * 0.995 }
    else
      (volatilityFactorAt prices ip.1).map (fun f =>
        { upper := ip.2.oracle * (1 + f), lower := ip.2.oracle * (1 - f) }))

/-- The adaptive-oracle effect (part_002 lines 320-339), as a function
from the inputs it reads (buffer, Chainlink quote, the adaptive band of
the latest index, previous published value) to the new published value.
Guards: empty buffer, falsy quote (null or 0), or missing band leave the
published value unchanged. -/
noncomputable def updateAdaptiveOraclePrice (data : List PricePoint)
    (chainlinkPrice : Option ℝ) (currentThresholds : Option ThresholdBand)
    (prev : Option ℝ) : Option ℝ :=
  if data.length = 0 then prev
  else
    match chainlinkPrice with
    | none => prev
    | some q =>
      if q = 0 then prev
      else
        match currentThresholds with
        | none => prev
        | some band =>
          let currentPoint := data.getD (data.length - 1) default
          if |currentPoint.ref - q| / q > |band.upper - band.lower| / (2 * q) then
            some currentPoint.ref
          else some q

/-- Simulator options (part_000 lines 13-20); oracleLag is a tick count. -/
structure SimOptions where
  basePrice : ℝ
  useRandomWalk : Bool
  volatility : ℝ
  oracleLag : ℕ
  oracleNoise : ℝ
  drift : ℝ

/-- The random-walk branch of the reference price (part_000 line 39):
lastRef + (Math.random() - 0.5) * volatility * basePrice, with the
Math.random() draws supplied as the stream rand1. -/
noncomputable def walkRef (o : SimOptions) (rand1 : ℕ → ℝ) : ℕ → ℝ
  | 0 => o.basePrice + (rand1 0 - 0.5) * o.volatility * o.basePrice
  | t + 1 => walkRef o rand1 t + (rand1 (t + 1) - 0.5) * o.volatility * o.basePrice

/-- The reference price at iteration t (part_000 lines 38-40).  Since the
loop pushes each ref onto refPrices in order, refPrices[i] equals this
function at i. -/
noncomputable def refAt (o : SimOptions) (rand1 : ℕ → ℝ) (t : ℕ) : ℝ :=
  if o.useRandomWalk then walkRef o rand1 t
  else o.basePrice + 2 * Real.sin ((t : ℝ) / 10) + o.drift * t

/-- simulatePrices (part_000 lines 11-54): for t = 0..duration-1 produce
the point with the reference price at t and the oracle price read from
the lagged reference refPrices[max(0, t - oracleLag)] (natural
subtraction) plus uniform noise from the stream rand2. -/
noncomputable def simulatePrices (duration : ℕ) (o : SimOptions)
    (rand1 rand2 : ℕ → ℝ) : List PricePoint :=
  (List.range duration).map (fun (t : ℕ) =>
    ⟨(t : ℝ), refAt o rand1 t,
      refAt o rand1 (t - o.oracleLag) + (rand2 t - 0.5) * o.oracleNoise⟩)

/-! ### CDE engine lemmas -/

theorem cdeSum_eq_sum (prices : List PricePoint) :
    cdeSum prices = ∑ i ∈ Finset.range (prices.length - 1),
      |(prices.getD (i + 1) default).ref - (prices.getD (i + 1) default).oracle| *
        ((prices.getD (i + 1) default).t - (prices.getD i default).t) / 1000 := by
  induction prices with
  | nil => simp [cdeSum]
  | cons p tail ih =>
    cases tail with
    | nil => simp [cdeSum]
    | cons q rest =>
      have hlen : (p :: q :: rest).length - 1 = rest.length + 1 := by simp
      rw [hlen, Finset.sum_range_succ']
      simp only [List.getD_cons_succ, List.getD_cons_zero]
      rw [cdeSum, ih]
      have hlen2 : (q :: rest).length - 1 = rest.length := by simp
      rw [hlen2]
      simp only [List.getD_cons_succ, List.getD_cons_zero]
      ring

theorem cdeSum_nonneg : ∀ prices : List PricePoint,
    prices.Chain' (fun a b => a.t ≤ b.t) → 0 ≤ cdeSum prices := by
  intro prices
  induction prices with
  | nil => intro _; simp [cdeSum]
  | cons p tail ih =>
    cases tail with
    | nil => intro _; simp [cdeSum]
    | cons q rest =>
      intro h
      rw [List.chain'_cons] at h
      rw [cdeSum]
      have h1 : 0 ≤ |q.ref - q.oracle| * (q.t - p.t) / 1000 :=
        div_nonneg (mul_nonneg (abs_nonneg _) (sub_nonneg.2 h.1)) (by norm_num)
      have h2 := ih h.2
      linarith

/-- Claim C1: calculateCDE returns the sum over i = 1..n-1 of
abs(p[i].ref - p[i].oracle) * (p[i].t - p[i-1].t) / 1000; any sequence
with fewer than two points yields exactly 0; and a pair of consecutive
points with equal timestamps contributes a summand of exactly zero. -/
theorem calculateCDE_spec (prices : List PricePoint) :
    (calculateCDE prices = ∑ i ∈ Finset.range (prices.length - 1),
      |(prices.getD (i + 1) default).ref - (prices.getD (i + 1) default).oracle| *
        ((prices.getD (i + 1) default).t - (prices.getD i default).t) / 1000) ∧
    (prices.length < 2 → calculateCDE prices = 0) ∧
    (∀ i : ℕ, (prices.getD (i + 1) default).t = (prices.getD i default).t →
      |(prices.getD (i + 1) default).ref - (prices.getD (i + 1) default).oracle| *
        ((prices.getD (i + 1) default).t - (prices.getD i default).t) / 1000 = 0) := by
  refine ⟨?_, ?_, ?_⟩
  · unfold calculateCDE
    split
    · next h =>
      have hz : prices.length - 1 = 0 := by omega
      rw [hz]
      simp
    · exact cdeSum_eq_sum prices
  · intro h
    simp [calculateCDE, h]
  · intro i h
    rw [h, sub_self, mul_zero, zero_div]

theorem calculateCDE_spec_witness : calculateCDE [] = 0 :=
  (calculateCDE_spec []).2.1 (by decide)

/-- Claim C8: for every point sequence with non-decreasing timestamps,
calculateCDE is nonnegative. -/
theorem calculateCDE_nonneg (prices : List PricePoint)
    (hmono : prices.Chain' (fun a b => a.t ≤ b.t)) : 0 ≤ calculateCDE prices := by
  unfold calculateCDE
  split
  · exact le_refl 0
  · exact cdeSum_nonneg prices hmono

theorem calculateCDE_nonneg_witness :
    0 ≤ calculateCDE [⟨0, 1, 2⟩, ⟨1, 3, 1⟩] :=
  calculateCDE_nonneg _ (by
    simp only [List.chain'_cons, List.chain'_singleton, and_true]
    norm_num)

/-! ### Tick buffer lemmas -/

theorem appendTick_eq (b : List PricePoint) (p : PricePoint) :
    appendTick b p = (b ++ [p]).drop ((b ++ [p]).length - 1000) := by
  simp only [appendTick]
  split
  · rfl
  · next h =>
    rw [Nat.sub_eq_zero_of_le (by omega), List.drop_zero]

theorem appendTick_length_le (b : List PricePoint) (p : PricePoint) :
    (appendTick b p).length ≤ 1000 ∨ (appendTick b p).length = b.length + 1 := by
  rw [appendTick_eq, List.length_drop]
  simp only [List.length_append, List.length_cons, List.length_nil]
  omega

theorem appendTicks_eq : ∀ ps b : List PricePoint, b.length ≤ 1000 →
    appendTicks b ps = (b ++ ps).drop ((b ++ ps).length - 1000) := by
  intro ps
  induction ps with
  | nil =>
    intro b hb
    rw [List.append_nil, Nat.sub_eq_zero_of_le hb, List.drop_zero]
    rfl
  | cons p tl ih =>
    intro b hb
    have hb' : (appendTick b p).length ≤ 1000 := by
      rw [appendTick_eq, List.length_drop]
      simp only [List.length_append, List.length_cons, List.length_nil]
      omega
    have hd : (b ++ [p]).length - 1000 ≤ (b ++ [p]).length := Nat.sub_le _ _
    have key : (b ++ [p]).drop ((b ++ [p]).length - 1000) ++ tl
        = ((b ++ [p]) ++ tl).drop ((b ++ [p]).length - 1000) :=
      (List.drop_append_of_le_length hd).symm
    have hstep : appendTicks b (p :: tl) = appendTicks (appendTick b p) tl := rfl
    rw [hstep, ih _ hb', appendTick_eq, key, List.drop_drop]
    simp only [List.append_assoc, List.singleton_append]
    have hXY : (b ++ [p]).length - 1000 +
        ((List.drop ((b ++ [p]).length - 1000) (b ++ (p :: tl))).length - 1000)
        = (b ++ p :: tl).length - 1000 := by
      simp only [List.length_drop, List.length_append, List.length_cons,
        List.length_nil]
      omega
    rw [hXY]

/-- Claim C5: after appending more than 1000 points to a buffer holding at
most 1000, the buffer has length exactly 1000 and equals the last 1000
appended points in arrival order. -/
theorem buffer_bound (b ps : List PricePoint) (hb : b.length ≤ 1000)
    (hk : 1000 < ps.length) :
    (appendTicks b ps).length = 1000 ∧
      appendTicks b ps = ps.drop (ps.length - 1000) := by
  have h := appendTicks_eq ps b hb
  constructor
  · rw [h, List.length_drop]
    simp only [List.length_append]
    omega
  · rw [h]
    have hc : (b ++ ps).length - 1000 = b.length + (ps.length - 1000) := by
      simp only [List.length_append]
      omega
    rw [hc, ← List.drop_drop, List.drop_left]

theorem buffer_bound_witness :
    (appendTicks []
      ((List.range 1001).map (fun (i : ℕ) => (⟨(i : ℝ), 0, 0⟩ : PricePoint)))).length
      = 1000 :=
  (buffer_bound [] _ (by decide)
    (by rw [List.length_map, List.length_range]; norm_num)).1

/-! ### Trigger, fallback point, and adaptive selector -/

/-- Claim C6: with a truthy (available) external quote q, a TriggerPoint
with value equal to the tick price is appended if and only if the
relative deviation of the quote from the tick price exceeds the static
threshold; with the quote unavailable the list is unchanged.  With
threshold 0.02 and price 100, a quote of 103 appends exactly one point of
value 100 and a quote of 101 appends none. -/
theorem static_trigger_emission (thr q price ts : ℝ) (prev : List TriggerPoint)
    (hq : q ≠ 0) :
    (updateStaticPoints thr (some q) price ts prev =
      if |q - price| / price > thr then prev ++ [⟨ts, price⟩] else prev) ∧
    updateStaticPoints thr none price ts prev = prev ∧
    updateStaticPoints 0.02 (some 103) 100 ts prev = prev ++ [⟨ts, 100⟩] ∧
    updateStaticPoints 0.02 (some 101) 100 ts prev = prev := by
  refine ⟨?_, rfl, ?_, ?_⟩
  · simp only [updateStaticPoints, if_neg hq]
  · have h103 : |(103 : ℝ) - 100| / 100 > 0.02 := by
      rw [show (103 : ℝ) - 100 = 3 by norm_num,
        abs_of_pos (by norm_num : (0 : ℝ) < 3)]
      norm_num
    simp only [updateStaticPoints]
    rw [if_neg (by norm_num : ¬(103 : ℝ) = 0), if_pos h103]
  · have h101 : ¬(|(101 : ℝ) - 100| / 100 > 0.02) := by
      rw [show (101 : ℝ) - 100 = 1 by norm_num,
        abs_of_pos (by norm_num : (0 : ℝ) < 1)]
      norm_num
    simp only [updateStaticPoints]
    rw [if_neg (by norm_num : ¬(101 : ℝ) = 0), if_neg h101]

theorem static_trigger_emission_witness :
    updateStaticPoints 0.02 (some 103) 100 7 [] = [] ++ [⟨7, 100⟩] :=
  (static_trigger_emission 0.02 103 100 7 [] (by norm_num)).2.2.1

/-- Claim C10: when the Chainlink quote is unavailable (null) or 0, the
appended tick point takes its oracle field from the tick price itself, so
the instantaneous deviation of that point is zero; and the buffer updater
appends exactly this point. -/
theorem missing_quote_fallback (q : Option ℝ) (price timestamp : ℝ)
    (prev : List PricePoint) (hq : q = none ∨ q = some 0) :
    (tickPoint q price timestamp).oracle = (tickPoint q price timestamp).ref ∧
    |(tickPoint q price timestamp).ref - (tickPoint q price timestamp).oracle| = 0 ∧
    updateData q price timestamp prev =
      appendTick prev (tickPoint q price timestamp) := by
  have ho : (tickPoint q price timestamp).oracle = price := by
    rcases hq with h | h <;> subst h <;> simp [tickPoint, jsOr]
  refine ⟨?_, ?_, rfl⟩
  · rw [ho]
    rfl
  · rw [ho]
    show |price - price| = 0
    rw [sub_self, abs_zero]

theorem missing_quote_fallback_witness :
    (tickPoint none 5 0).oracle = (tickPoint none 5 0).ref :=
  (missing_quote_fallback none 5 0 [] (Or.inl rfl)).1

/-- Claim C7: per tick, with a nonempty buffer, the adaptive band of the
latest index and a truthy external quote q, the published oracle value is
latest.ref when the relative deviation of latest.ref from q exceeds the
band width over twice the quote, and q otherwise; with the quote absent
the published value is unchanged. -/
theorem adaptive_oracle_selector (data : List PricePoint) (band : ThresholdBand)
    (q : ℝ) (prev : Option ℝ) (hdata : ¬data.length = 0) (hq : ¬q = 0)
    (hband : band.lower ≤ band.upper) :
    (updateAdaptiveOraclePrice data (some q) (some band) prev =
      if |(data.getD (data.length - 1) default).ref - q| / q >
          (band.upper - band.lower) / (2 * q) then
        some (data.getD (data.length - 1) default).ref
      else some q) ∧
    updateAdaptiveOraclePrice data none (some band) prev = prev := by
  constructor
  · simp only [updateAdaptiveOraclePrice, if_neg hdata, if_neg hq]
    rw [abs_of_nonneg (sub_nonneg.2 hband)]
  · simp only [updateAdaptiveOraclePrice, ite_self]

theorem adaptive_oracle_selector_witness :
    updateAdaptiveOraclePrice [⟨0, 100, 100⟩] none (some ⟨101, 99⟩) none = none :=
  (adaptive_oracle_selector [⟨0, 100, 100⟩] ⟨101, 99⟩ 100 none (by decide)
    (by norm_num) (by norm_num : (99 : ℝ) ≤ 101)).2

/-! ### Simulator -/

/-- Claim C9: in the non-random branch the generated reference price at
every index t below the duration is exactly
basePrice + 2 * sin(t / 10) + drift * t. -/
theorem simulator_deterministic_ref (duration : ℕ) (o : SimOptions)
    (r1 r2 : ℕ → ℝ) (t : ℕ) (hw : o.useRandomWalk = false) (ht : t < duration) :
    ((simulatePrices duration o r1 r2).getD t default).ref =
      o.basePrice + 2 * Real.sin ((t : ℝ) / 10) + o.drift * t := by
  have hlen : t < ((List.range duration).map (fun (u : ℕ) =>
      (⟨(u : ℝ), refAt o r1 u,
        refAt o r1 (u - o.oracleLag) + (r2 u - 0.5) * o.oracleNoise⟩ :
        PricePoint))).length := by
    rw [List.length_map, List.length_range]
    exact ht
  unfold simulatePrices
  rw [List.getD_eq_getElem _ _ hlen, List.getElem_map, List.getElem_range]
  show refAt o r1 t = _
  rw [refAt, hw]
  simp

theorem simulator_deterministic_ref_witness :
    ((simulatePrices 5 ⟨100, false, 0.02, 0, 0.5, 0⟩ (fun _ => 0)
        (fun _ => 0)).getD 2 default).ref = 100 + 2 * Real.sin (2 / 10) := by
  have h := simulator_deterministic_ref 5 ⟨100, false, 0.02, 0, 0.5, 0⟩
    (fun _ => 0) (fun _ => 0) 2 rfl (by norm_num)
  simpa using h

/-! ### Adaptive threshold lemmas -/

theorem rollingWindow_length (prices : List PricePoint) (i : ℕ) (_h1 : 1 ≤ i)
    (h2 : i < prices.length) :
    (rollingWindow prices i).length = min 10 i + 1 := by
  unfold rollingWindow
  rw [List.length_map, List.length_take, List.length_drop]
  have hmin : min 10 i ≤ i := min_le_right 10 i
  omega

theorem rollingWindow_mem {prices : List PricePoint} {i : ℕ} {x : ℝ}
    (hx : x ∈ rollingWindow prices i) : ∃ p ∈ prices, x = p.oracle := by
  unfold rollingWindow at hx
  rcases List.mem_map.1 hx with ⟨p, hp, rfl⟩
  exact ⟨p, List.mem_of_mem_drop (List.mem_of_mem_take hp), rfl⟩

theorem rollingMean_pos (prices : List PricePoint) (i : ℕ) (h1 : 1 ≤ i)
    (h2 : i < prices.length) (hpos : ∀ p ∈ prices, 0 < p.oracle) :
    0 < rollingMean prices i := by
  have hlen := rollingWindow_length prices i h1 h2
  unfold rollingMean
  apply div_pos
  · apply List.sum_pos
    · intro x hx
      rcases rollingWindow_mem hx with ⟨p, hp, rfl⟩
      exact hpos p hp
    · intro hnil
      rw [hnil] at hlen
      simp at hlen
  · rw [hlen]
    exact_mod_cast Nat.succ_pos (min 10 i)

theorem rollingStdDev_nonneg (prices : List PricePoint) (i : ℕ) :
    0 ≤ rollingStdDev prices i :=
  Real.sqrt_nonneg _

theorem volatilityFactorAt_bounds (prices : List PricePoint) (i : ℕ)
    (h1 : 1 ≤ i) (h2 : i < prices.length)
    (hpos : ∀ p ∈ prices, 0 < p.oracle) :
    ∃ f, volatilityFactorAt prices i = some f ∧ 0 ≤ f ∧ f ≤ 0.01 := by
  have hmean := rollingMean_pos prices i h1 h2 hpos
  refine ⟨min 0.01 (rollingStdDev prices i / rollingMean prices i), ?_, ?_, ?_⟩
  · unfold volatilityFactorAt
    rw [if_neg (ne_of_gt hmean)]
  · exact le_min (by norm_num)
      (div_nonneg (rollingStdDev_nonneg prices i) (le_of_lt hmean))
  · exact min_le_left _ _

/-- Claim C2 (amended): for every input sequence whose oracle values are
all positive, the volatility factor at every index used by the adaptive
computation is defined and lies in the closed interval [0, 0.01]; and
whenever a rolling mean is zero while the rolling standard deviation is
nonzero, the factor is the maximum 0.01. -/
theorem adaptive_volatility_clamp (prices : List PricePoint)
    (hpos : ∀ p ∈ prices, 0 < p.oracle) :
    (∀ i, 1 ≤ i → i < prices.length →
      ∃ f, volatilityFactorAt prices i = some f ∧ 0 ≤ f ∧ f ≤ 0.01) ∧
    (∀ j, rollingMean prices j = 0 → ¬rollingStdDev prices j = 0 →
      volatilityFactorAt prices j = some 0.01) := by
  constructor
  · intro i h1 h2
    exact volatilityFactorAt_bounds prices i h1 h2 hpos
  · intro j hm hs
    unfold volatilityFactorAt
    rw [if_pos hm, if_neg hs]

theorem adaptive_volatility_clamp_witness :
    ∃ f, volatilityFactorAt [⟨0, 1, 1⟩, ⟨1, 1, 1⟩] 1 = some f ∧
      0 ≤ f ∧ f ≤ 0.01 :=
  (adaptive_volatility_clamp [⟨0, 1, 1⟩, ⟨1, 1, 1⟩] (by
    intro p hp
    rcases List.mem_cons.1 hp with rfl | hp'
    · norm_num
    · rcases List.mem_singleton.1 hp' with rfl
      norm_num)).1 1 (by norm_num) (by decide)

/-- Claim C2 counterexample: on the two-point sequence with oracle values
-1 and -3 (negative rolling mean), the volatility factor computed at
index 1 is -1/2, which is outside the claimed interval [0, 0.01]. -/
theorem adaptive_volatility_clamp_cex :
    volatilityFactorAt [⟨0, 0, -1⟩, ⟨1, 0, -3⟩] 1 = some (-(1 / 2) : ℝ) ∧
    ¬(0 ≤ (-(1 / 2) : ℝ)) := by
  have hw : rollingWindow [⟨0, 0, -1⟩, ⟨1, 0, -3⟩] 1 = [-1, -3] := rfl
  have hm : rollingMean [⟨0, 0, -1⟩, ⟨1, 0, -3⟩] 1 = -2 := by
    rw [rollingMean, hw]
    norm_num
  have hsd : rollingStdDev [⟨0, 0, -1⟩, ⟨1, 0, -3⟩] 1 = 1 := by
    rw [rollingStdDev, hw, hm]
    norm_num
  constructor
  · rw [volatilityFactorAt, hm, hsd]
    rw [if_neg (by norm_num : ¬(-2 : ℝ) = 0)]
    rw [min_eq_right (by norm_num : (1 : ℝ) / -2 ≤ 0.01)]
    norm_num
  · norm_num

/-- Claim C3 (amended): for every input sequence whose oracle values are
all positive, the static band of the latest point and every entry of the
adaptive band series are defined and satisfy upper >= lower. -/
theorem threshold_band_ordering (data : List PricePoint)
    (hpos : ∀ p ∈ data, 0 < p.oracle) :
    (getThresholds data).lower ≤ (getThresholds data).upper ∧
    ∀ ob ∈ calculateAdaptiveThresholds data,
      ∃ b, ob = some b ∧ b.lower ≤ b.upper := by
  constructor
  · unfold getThresholds
    split
    · exact le_refl 0
    · next h =>
      have hlt : data.length - 1 < data.length := by omega
      have hmem : data.getD (data.length - 1) default ∈ data := by
        rw [List.getD_eq_getElem _ _ hlt]
        exact List.getElem_mem _
      have ho := hpos _ hmem
      show (data.getD (data.length - 1) default).oracle * (1 - 0.005) ≤
        (data.getD (data.length - 1) default).oracle * (1 + 0.005)
      exact mul_le_mul_of_nonneg_left (by norm_num) (le_of_lt ho)
  · intro ob hob
    unfold calculateAdaptiveThresholds at hob
    split at hob
    · simp at hob
    · next hlen =>
      rcases List.mem_map.1 hob with ⟨ip, hip, rfl⟩
      obtain ⟨i, p⟩ := ip
      obtain ⟨-, h2, h3⟩ := List.mem_enumFrom hip
      have hi : i < data.length := by omega
      have hpmem : p ∈ data := by
        rw [h3]
        exact List.getElem_mem _
      have ho := hpos p hpmem
      by_cases h0 : i = 0
      · subst h0
        refine ⟨⟨p.oracle * 1.005, p.oracle * 0.995⟩, by simp, ?_⟩
        show p.oracle * 0.995 ≤ p.oracle * 1.005
        exact mul_le_mul_of_nonneg_left (by norm_num) (le_of_lt ho)
      · have h1 : 1 ≤ i := by omega
        obtain ⟨f, hf, hf0, hf1⟩ := volatilityFactorAt_bounds data i h1 hi hpos
        refine ⟨⟨p.oracle * (1 + f), p.oracle * (1 - f)⟩, by simp [h0, hf], ?_⟩
        show p.oracle * (1 - f) ≤ p.oracle * (1 + f)
        exact mul_le_mul_of_nonneg_left (by linarith) (le_of_lt ho)

theorem threshold_band_ordering_witness :
    (getThresholds [⟨0, 2, 3⟩]).lower ≤ (getThresholds [⟨0, 2, 3⟩]).upper :=
  (threshold_band_ordering [⟨0, 2, 3⟩] (by
    intro p hp
    rcases List.mem_singleton.1 hp with rfl
    norm_num)).1

/-- Claim C3 counterexample: a buffer whose latest oracle price is -100
produces a static band with upper strictly below lower. -/
theorem threshold_band_ordering_cex :
    (getThresholds [⟨0, 0, -100⟩]).upper < (getThresholds [⟨0, 0, -100⟩]).lower := by
  show (-100 : ℝ) * (1 + 0.005) < (-100 : ℝ) * (1 - 0.005)
  norm_num

/-- Claim C4 (amended): for every sequence of at least two points the
adaptive computation returns one band per point (same length), with the
band at index 0 equal to oracle*1.005 / oracle*0.995 of the first point;
a sequence of fewer than two points (in particular a one-point sequence)
yields the empty series. -/
theorem adaptive_alignment (prices : List PricePoint) :
    (2 ≤ prices.length →
      (calculateAdaptiveThresholds prices).length = prices.length ∧
      ∀ p0, prices.head? = some p0 →
        (calculateAdaptiveThresholds prices).head? =
          some (some ⟨p0.oracle * 1.005, p0.oracle * 0.995⟩)) ∧
    (prices.length < 2 → calculateAdaptiveThresholds prices = []) := by
  constructor
  · intro h2
    constructor
    · unfold calculateAdaptiveThresholds
      rw [if_neg (by omega)]
      rw [List.length_map, List.enum_length]
    · intro p0 hp0
      cases prices with
      | nil => simp at hp0
      | cons a tl =>
        have ha : a = p0 := by simpa using hp0
        subst ha
        unfold calculateAdaptiveThresholds
        rw [if_neg (by omega)]
        rw [List.enum_cons]
        simp
  · intro h
    unfold calculateAdaptiveThresholds
    rw [if_pos h]

theorem adaptive_alignment_witness :
    (calculateAdaptiveThresholds [⟨0, 1, 1⟩, ⟨1, 2, 2⟩]).length =
      ([⟨0, 1, 1⟩, ⟨1, 2, 2⟩] : List PricePoint).length :=
  ((adaptive_alignment [⟨0, 1, 1⟩, ⟨1, 2, 2⟩]).1 (by decide)).1

/-- Claim C4 counterexample: a one-point sequence yields the empty band
series, not a series of exactly one band. -/
theorem adaptive_alignment_cex :
    calculateAdaptiveThresholds [⟨0, 100, 100⟩] = [] ∧
    ¬(calculateAdaptiveThresholds [⟨0, 100, 100⟩]).length = 1 := by
  have h : calculateAdaptiveThresholds [⟨0, 100, 100⟩] = [] := by
    unfold calculateAdaptiveThresholds
    rw [if_pos (by decide)]
  refine ⟨h, ?_⟩
  rw [h]
  decide

end CdeSimulator
